import Mathlib

/-!
Verification of the sovon-cms site-tree model and rendering pipeline
(`src/sovon_cms/main.py`) against its specification.

The embedding below translates the Python source into Lean:

* the input filesystem is a rose tree `FsDir` whose `files`/`subdirs` lists
  are in directory-listing (`os.listdir`) order, restricted to regular files
  and to directories respectively;
* paths are component lists (`List String`); `os.path.join dir name` is
  `dir ++ [name]`;
* file contents are `String`s; `shutil.copy` is modelled as writing the
  byte-identical source content;
* the opaque template engine `parse_jinja(path, **bindings)` is modelled by
  the symbolic value `RContent.rendered path bindings…`; Markdown conversion
  never happens in `render_category` (documents are rendered via templates or
  copied), so it needs no model of its own;
* the side effects of `render_category` are reified as an ordered trace of
  `Act`s (directory creation and file writes); the content a path holds
  after the run is the content of the last write to it (`finalContent`);
* Python's `re` digits `\d` and `int()` are modelled on the ASCII digits,
  and `.` in a pattern matches any character except a newline, as in Python;
* Python's `list.sort` is a stable sort; it is modelled by `List.insertionSort`
  on the same key, which is stable (equal-key order preservation is proved
  below, pinning the model to the unique stable result).
-/

/-- Sentinel ordering index, `MAX_INDEX = int(1e10)` in the source. -/
def MAX_INDEX : Nat := 10000000000

/-- Reserved per-document template filename, `MARKDOWN_TEMPLATE` in the source. -/
def MARKDOWN_TEMPLATE : String := "_markdown.html"

/-- Reserved per-category index template filename, `INDEX_TEMPLATE` in the source. -/
def INDEX_TEMPLATE : String := "_index.html"

/-- Suffix test on strings, modelling Python `str.endswith` (char-exact). -/
def endsWithS (s suf : String) : Bool := List.isSuffixOf suf.data s.data

/-- Value of a decimal digit string, modelling `int(...)` on the digits
captured by `(\d+)`. -/
def digitsToNat (ds : List Char) : Nat :=
  ds.foldl (fun n c => n * 10 + (c.toNat - '0'.toNat)) 0

/-- Separator class `[-._]` of the filename regex. -/
def isSepChar (c : Char) : Bool := c = '-' || c = '.' || c = '_'

/-- Semantics of `re.match(r'(\d+)[\-\._](.+)', file_name)`: a maximal
nonempty leading run of digits, one separator, then a nonempty greedy `.+`
capture (which stops at a newline, as Python's `.` does).  Backtracking can
never help here: digits and separators are disjoint character classes, so the
match succeeds exactly in this shape.  Returns the two captured groups, the
first already converted by `int`. -/
def reMatchIndexed (l : List Char) : Option (Nat × List Char) :=
  let ds := l.takeWhile Char.isDigit
  if ds.isEmpty then none
  else
    match l.dropWhile Char.isDigit with
    | [] => none
    | c :: rest =>
      if isSepChar c then
        let t := rest.takeWhile (fun x => x ≠ '\n')
        if t.isEmpty then none else some (digitsToNat ds, t)
      else none

/-- Model of `os.path.splitext` restricted to bare filenames (the source only
applies it to `os.listdir` entries, which contain no path separator): split
off the part from the last dot on, unless every character before that dot is
itself a dot (so `".bashrc"` and `"..md"` keep their "extension"). -/
def splitext (s : String) : String × String :=
  let l := s.data
  if l.contains '.' then
    let after := (l.reverse.takeWhile (fun c => c ≠ '.')).reverse
    let before := l.take (l.length - after.length - 1)
    if before.any (fun c => c ≠ '.') then (⟨before⟩, ⟨'.' :: after⟩)
    else (s, "")
  else (s, "")

/-- Model of `parse_file_name`: on a regex match the captured digits become
the index and the second capture the title, otherwise `MAX_INDEX` and the
whole filename; either way the title finally has its extension stripped. -/
def parse_file_name (file_name : String) : Nat × String :=
  match reMatchIndexed file_name.data with
  | some (index, title) => (index, (splitext ⟨title⟩).1)
  | none => (MAX_INDEX, (splitext file_name).1)

/-- Model of `re.sub(r'\.md$', '.html', s)`. -/
def subMdHtml (s : String) : String :=
  if endsWithS s ".md" then ⟨s.data.take (s.data.length - 3) ++ ".html".data⟩
  else s

/-- One content file of a category: its directory path, its basename and its
content.  `modified_time` (an `os.stat` timestamp never used by the pipeline)
is omitted. -/
structure Document where
  dirPath : List String
  file_name : String
  content : String
deriving DecidableEq, Repr

/-- Python `file_path.endswith('.md')`; the path ends with its basename and
`'/'` cannot occur inside the suffix, so the test only depends on the
basename. -/
def Document.is_markdown (d : Document) : Bool := endsWithS d.file_name ".md"

/-- Python `file_path.endswith('.html') or file_path.endswith('.htm')`. -/
def Document.is_html (d : Document) : Bool :=
  endsWithS d.file_name ".html" || endsWithS d.file_name ".htm"

/-- Ordering index stored by `Document.__init__`: parsed from the filename
for markdown files, `None` otherwise. -/
def Document.index (d : Document) : Option Nat :=
  if d.is_markdown then some (parse_file_name d.file_name).1 else none

/-- Title stored by `Document.__init__`: parsed for markdown files, the raw
filename otherwise. -/
def Document.title (d : Document) : String :=
  if d.is_markdown then (parse_file_name d.file_name).2 else d.file_name

/-- Python `Document.href`: basename with `.md` rewritten to `.html` for
markdown documents. -/
def Document.href (d : Document) : String :=
  if d.is_markdown then subMdHtml d.file_name else d.file_name

/-- Source directory tree.  `files` are the regular files (name, content) and
`subdirs` the subdirectories, each in directory-listing order. -/
inductive FsDir : Type where
  | node (name : String) (files : List (String × String)) (subdirs : List FsDir)

def FsDir.name : FsDir → String
  | .node n _ _ => n

def FsDir.files : FsDir → List (String × String)
  | .node _ fs _ => fs

def FsDir.subdirs : FsDir → List FsDir
  | .node _ _ ds => ds

/-- Model of `os.path.exists(os.path.join(dir_path, entry))` for an entry of
this directory: a file or a subdirectory of that name exists. -/
def FsDir.hasEntry (d : FsDir) (entry : String) : Bool :=
  d.files.any (fun f => f.1 = entry) || d.subdirs.any (fun s => s.name = entry)

theorem FsDir.sizeOf_subdirs_lt (d : FsDir) : sizeOf d.subdirs < sizeOf d := by
  cases d with
  | node n fs ds => simp [FsDir.subdirs]

/-- The `Category` object: directory path, the directory itself, index and
title, the two template references resolved at construction, and the
non-owning parent back-reference. -/
inductive Category : Type where
  | mk (dirPath : List String) (dir : FsDir) (index : Nat) (title : String)
       (document_template : Option (List String))
       (index_template : Option (List String))
       (parent : Option Category)

def Category.dirPath : Category → List String
  | .mk p _ _ _ _ _ _ => p

def Category.dir : Category → FsDir
  | .mk _ d _ _ _ _ _ => d

def Category.index : Category → Nat
  | .mk _ _ i _ _ _ _ => i

def Category.title : Category → String
  | .mk _ _ _ t _ _ _ => t

def Category.document_template : Category → Option (List String)
  | .mk _ _ _ _ dt _ _ => dt

def Category.index_template : Category → Option (List String)
  | .mk _ _ _ _ _ it _ => it

def Category.parent : Category → Option Category
  | .mk _ _ _ _ _ _ p => p

/-- Model of `Category.__init__`.  `idxTitle = none` corresponds to the
Python call with `index=None, title=None` (index and title parsed from the
directory basename).  Template resolution happens here, once, exactly as in
the source: the category's own template file if it exists in this directory,
else the parent's already-resolved template, else (at the root) `None`. -/
def mkCategory (dirPath : List String) (dir : FsDir) (idxTitle : Option (Nat × String))
    (parent : Option Category) : Category :=
  let it := match idxTitle with
    | some p => p
    | none => parse_file_name dir.name
  let document_template :=
    if dir.hasEntry MARKDOWN_TEMPLATE then some (dirPath ++ [MARKDOWN_TEMPLATE])
    else match parent with
      | some p => p.document_template
      | none => none
  let index_template :=
    if dir.hasEntry INDEX_TEMPLATE then some (dirPath ++ [INDEX_TEMPLATE])
    else match parent with
      | some p => p.index_template
      | none => none
  Category.mk dirPath dir it.1 it.2 document_template index_template parent

/-- Child category construction, `Category(sub, parent=self)` in the source. -/
def mkChild (c : Category) (d : FsDir) : Category :=
  mkCategory (c.dirPath ++ [d.name]) d none (some c)

/-- Python `Category.uri`: empty for the root, otherwise the parent's uri,
a slash, and this directory's basename. -/
def Category.uri : Category → String
  | .mk _ _ _ _ _ _ none => ""
  | .mk _ dir _ _ _ _ (some p) => Category.uri p ++ "/" ++ dir.name

/-- Python `Category.documents`: the directory's files minus the two reserved
template names, each wrapped as a `Document`, in listing order.  (The Python
property caches its result; in this pure model the cache is invisible.) -/
def Category.documents (c : Category) : List Document :=
  (c.dir.files.filter
      (fun f => f.1 ≠ INDEX_TEMPLATE && f.1 ≠ MARKDOWN_TEMPLATE)).map
    (fun f => { dirPath := c.dirPath, file_name := f.1, content := f.2 })

/-- Python `Category.children`: one child `Category` per subdirectory, in
listing order, each with `parent = self`. -/
def Category.children (c : Category) : List Category :=
  c.dir.subdirs.map (mkChild c)

/-- Python `Category.has_html`: some document is markdown or html. -/
def Category.has_html (c : Category) : Bool :=
  c.documents.any (fun d => d.is_markdown || d.is_html)

/-- Sort key used at line 197 of the source:
`doc.index if doc.index is not None else MAX_INDEX`. -/
def sortKey (d : Document) : Nat :=
  match d.index with
  | some i => i
  | none => MAX_INDEX

/-- Comparison relation of the sort: ascending by `sortKey`. -/
def docLE (a b : Document) : Prop := sortKey a ≤ sortKey b

instance : DecidableRel docLE := fun a b => inferInstanceAs (Decidable (sortKey a ≤ sortKey b))

instance : IsTotal Document docLE := ⟨fun a b => Nat.le_total _ _⟩

instance : IsTrans Document docLE := ⟨fun _ _ _ => Nat.le_trans⟩

/-- Python `markdown_documents.sort(key=...)`: a stable ascending sort by
`sortKey`.  A stable sort's output is uniquely determined by the key and the
input order, and `insertionSort` over `docLE` is stable (see
`sortDocs_filter_key`), so this is the faithful model of `list.sort`. -/
def sortDocs (l : List Document) : List Document := List.insertionSort docLE l

/-- The `markdown_documents` list of `render_category` after sorting: the
category's markdown documents, stably sorted ascending by index. -/
def markdownDocs (c : Category) : List Document :=
  sortDocs (c.documents.filter (fun d => d.is_markdown))

/-- The `children_with_html` list of `render_category`. -/
def childrenWithHtml (c : Category) : List Category :=
  c.children.filter (fun cat => cat.has_html)

/-- Content written to an output file: either the symbolic result of
`parse_jinja(template, documents=…, children=…, root=…, document=…,
category=…)`, or a byte-for-byte copy of source content. -/
inductive RContent : Type where
  | rendered (template : List String) (documents : List Document)
      (children : List Category) (root : Category)
      (document : Option Document) (category : Category)
  | raw (content : String)

/-- The template reference a rendered content came from, if any. -/
def RContent.templateOf : RContent → Option (List String)
  | .rendered t _ _ _ _ _ => some t
  | .raw _ => none

/-- The `documents` binding a rendered content received, if any. -/
def RContent.documentsOf : RContent → Option (List Document)
  | .rendered _ docs _ _ _ _ => some docs
  | .raw _ => none

/-- The `children` binding a rendered content received, if any. -/
def RContent.childrenOf : RContent → Option (List Category)
  | .rendered _ _ ch _ _ _ => some ch
  | .raw _ => none

/-- One side effect of the pipeline: ensuring an output directory exists, or
writing content to an output file. -/
inductive Act : Type where
  | mkdir (path : List String)
  | write (path : List String) (content : RContent)

/-- Path an action touches. -/
def Act.target : Act → List String
  | .mkdir p => p
  | .write p _ => p

/-- Lines 199–203 of the source: the index page step.  When the category has
a resolved index template and a nonempty markdown document list, the template
is rendered with `documents = markdown_documents`, the unfiltered `children`,
`root` and `category`, and written to `output_dir/index.html`; otherwise
nothing happens. -/
def indexPageActs (root c : Category) (output_dir : List String) : List Act :=
  match c.index_template with
  | some t =>
    if (markdownDocs c).length > 0 then
      [Act.write (output_dir ++ ["index.html"])
        (RContent.rendered t (markdownDocs c) c.children root none c)]
    else []
  | none => []

/-- Lines 205–218 of the source: the body of the per-document loop for one
document; exactly one file is produced per document. -/
def perDocActs (root c : Category) (output_dir : List String) (document : Document) :
    List Act :=
  let output_path := output_dir ++ [document.file_name]
  match document.is_markdown, c.document_template with
  | true, some mt =>
    [Act.write (output_dir ++ [subMdHtml document.file_name])
      (RContent.rendered mt (markdownDocs c) (childrenWithHtml c) root (some document) c)]
  | _, _ =>
    if document.is_html then
      [Act.write output_path
        (RContent.rendered (document.dirPath ++ [document.file_name])
          (markdownDocs c) (childrenWithHtml c) root none c)]
    else
      [Act.write output_path (RContent.raw document.content)]

/-- The whole per-document pass, iterating `category.documents` in original
directory-listing order. -/
def documentPassActs (root c : Category) (output_dir : List String) : List Act :=
  c.documents.flatMap (perDocActs root c output_dir)

mutual
/-- Model of `render_category(root, category, output_dir)`: ensure the output
directory, run the index page step, the per-document pass, then recurse into
every child category (line 220 iterates `children`, which is
`category.dir.subdirs` wrapped by `mkChild`). -/
def renderCategory (root category : Category) (output_dir : List String) : List Act :=
  Act.mkdir output_dir ::
    (indexPageActs root category output_dir ++ documentPassActs root category output_dir
      ++ renderChildren root category category.dir.subdirs output_dir)
termination_by sizeOf category.dir
decreasing_by exact FsDir.sizeOf_subdirs_lt category.dir

/-- The recursion of `render_category` over the child list, in order. -/
def renderChildren (root parent : Category) (ds : List FsDir) (output_dir : List String) :
    List Act :=
  match ds with
  | [] => []
  | d :: rest =>
    renderCategory root (mkChild parent d) (output_dir ++ [d.name])
      ++ renderChildren root parent rest output_dir
termination_by sizeOf ds
decreasing_by all_goals (simp [mkChild, mkCategory, Category.dir]; try omega)
end

/-- Model of `render_site` after its path normalisation: build the root
category with index 0 and title ROOT and render it. -/
def render_site (rootPath : List String) (rootDir : FsDir) (output_dir : List String) :
    List Act :=
  let root := mkCategory rootPath rootDir (some (0, "ROOT")) none
  renderCategory root root output_dir

/-- All contents written to one path, in trace order. -/
def writesAt (acts : List Act) (p : List String) : List RContent :=
  acts.filterMap (fun a =>
    match a with
    | .write q cnt => if q = p then some cnt else none
    | .mkdir _ => none)

/-- Content a path holds after the run: the last write to it, if any. -/
def finalContent (acts : List Act) (p : List String) : Option RContent :=
  (writesAt acts p).getLast?

/-- Output basename the per-document pass produces for a document: `.md`
becomes `.html` exactly when the document is markdown and the category has a
resolved document template. -/
def outName (c : Category) (d : Document) : String :=
  if d.is_markdown && c.document_template.isSome then subMdHtml d.file_name
  else d.file_name

/-- Descendant relation: `Desc a c` holds when `c` is reached from `a` by
following `children` zero or more times, i.e. `c` is a category the pipeline
actually constructs below `a`. -/
inductive Desc : Category → Category → Prop where
  | refl (c : Category) : Desc c c
  | step {a b c : Category} : Desc a b → c ∈ b.children → Desc a c

/-- Chain relation recording the directory basenames passed on the way down:
`ChainFrom r c ns` holds when `c` is reached from `r` through children whose
directory basenames are `ns` in order. -/
inductive ChainFrom (r : Category) : Category → List String → Prop where
  | refl : ChainFrom r r []
  | step {b c : Category} {ns : List String} :
      ChainFrom r b ns → c ∈ b.children → ChainFrom r c (ns ++ [c.dir.name])

/-- Non-owning ancestor chain of a category, nearest parent first. -/
def Category.ancestors : Category → List Category
  | .mk _ _ _ _ _ _ none => []
  | .mk _ _ _ _ _ _ (some p) => p :: Category.ancestors p

/-! ### Unfolding and accessor lemmas -/

theorem renderCategory_def (root category : Category) (output_dir : List String) :
    renderCategory root category output_dir =
      Act.mkdir output_dir ::
        (indexPageActs root category output_dir ++ documentPassActs root category output_dir
          ++ renderChildren root category category.dir.subdirs output_dir) := by
  rw [renderCategory.eq_def]

theorem renderChildren_nil (root parent : Category) (output_dir : List String) :
    renderChildren root parent [] output_dir = [] := by
  rw [renderChildren.eq_def]

theorem renderChildren_cons (root parent : Category) (d : FsDir) (rest : List FsDir)
    (output_dir : List String) :
    renderChildren root parent (d :: rest) output_dir =
      renderCategory root (mkChild parent d) (output_dir ++ [d.name])
        ++ renderChildren root parent rest output_dir := by
  rw [renderChildren.eq_def]

theorem mkCategory_dir (p : List String) (d : FsDir) (it : Option (Nat × String))
    (par : Option Category) : (mkCategory p d it par).dir = d := rfl

theorem mkCategory_dirPath (p : List String) (d : FsDir) (it : Option (Nat × String))
    (par : Option Category) : (mkCategory p d it par).dirPath = p := rfl

theorem mkCategory_parent (p : List String) (d : FsDir) (it : Option (Nat × String))
    (par : Option Category) : (mkCategory p d it par).parent = par := rfl

theorem mkCategory_document_template (p : List String) (d : FsDir)
    (it : Option (Nat × String)) (par : Option Category) :
    (mkCategory p d it par).document_template =
      if d.hasEntry MARKDOWN_TEMPLATE then some (p ++ [MARKDOWN_TEMPLATE])
      else match par with
        | some q => q.document_template
        | none => none := rfl

theorem mkCategory_index_template (p : List String) (d : FsDir)
    (it : Option (Nat × String)) (par : Option Category) :
    (mkCategory p d it par).index_template =
      if d.hasEntry INDEX_TEMPLATE then some (p ++ [INDEX_TEMPLATE])
      else match par with
        | some q => q.index_template
        | none => none := rfl

theorem mkChild_dir (c : Category) (d : FsDir) : (mkChild c d).dir = d := rfl

theorem mkChild_parent (c : Category) (d : FsDir) : (mkChild c d).parent = some c := rfl

theorem mem_children_iff (c x : Category) :
    x ∈ c.children ↔ ∃ d ∈ c.dir.subdirs, x = mkChild c d := by
  simp [Category.children, eq_comm]

/-! ### The sort at line 197: sortedness, permutation, stability -/

theorem sortDocs_sorted (l : List Document) : (sortDocs l).Pairwise docLE :=
  List.sorted_insertionSort docLE l

theorem sortDocs_perm (l : List Document) : (sortDocs l).Perm l :=
  List.perm_insertionSort docLE l

theorem filter_key_orderedInsert_eq (a : Document) (s : List Document) (k : Nat)
    (h : sortKey a = k) :
    (List.orderedInsert docLE a s).filter (fun d => sortKey d = k) =
      a :: s.filter (fun d => sortKey d = k) := by
  rw [List.orderedInsert_eq_take_drop, List.filter_append, List.filter_cons]
  have ht : (s.takeWhile fun b => !decide (docLE a b)).filter (fun d => sortKey d = k) = [] := by
    rw [List.filter_eq_nil_iff]
    intro b hb
    have hlt := List.mem_takeWhile_imp hb
    simp only [Bool.not_eq_true', decide_eq_false_iff_not, docLE] at hlt
    simp only [decide_eq_true_eq]
    omega
  have hd : (s.dropWhile fun b => !decide (docLE a b)).filter (fun d => sortKey d = k) =
      s.filter (fun d => sortKey d = k) := by
    have hsplit : s.takeWhile (fun b => !decide (docLE a b))
        ++ s.dropWhile (fun b => !decide (docLE a b)) = s :=
      List.takeWhile_append_dropWhile ..
    conv_rhs => rw [← hsplit]
    rw [List.filter_append, ht, List.nil_append]
  simp only [decide_not] at ht hd ⊢
  rw [ht, hd]
  simp [h]

theorem filter_key_orderedInsert_ne (a : Document) (s : List Document) (k : Nat)
    (h : sortKey a ≠ k) :
    (List.orderedInsert docLE a s).filter (fun d => sortKey d = k) =
      s.filter (fun d => sortKey d = k) := by
  rw [List.orderedInsert_eq_take_drop, List.filter_append, List.filter_cons]
  simp only [decide_not, decide_eq_true_eq, h, if_false]
  rw [← List.filter_append, List.takeWhile_append_dropWhile]

theorem sortDocs_filter_key (k : Nat) (l : List Document) :
    (sortDocs l).filter (fun d => sortKey d = k) = l.filter (fun d => sortKey d = k) := by
  induction l with
  | nil => rfl
  | cons a l ih =>
    have hstep : sortDocs (a :: l) = List.orderedInsert docLE a (sortDocs l) := rfl
    rw [hstep, List.filter_cons]
    by_cases h : sortKey a = k
    · rw [filter_key_orderedInsert_eq a (sortDocs l) k h, ih]
      simp [h]
    · rw [filter_key_orderedInsert_ne a (sortDocs l) k h, ih]
      simp [h]

/-! ### Document kind facts -/

theorem endsWithS_last (s suf : String) (h : endsWithS s suf = true) (hne : suf.data ≠ []) :
    s.data.reverse.head? = suf.data.reverse.head? := by
  have hsuf : suf.data <:+ s.data := List.isSuffixOf_iff_suffix.mp h
  obtain ⟨t, ht⟩ := hsuf
  rw [← ht, List.reverse_append]
  cases hs : suf.data.reverse with
  | nil => exact absurd (by simpa using hs) hne
  | cons a as => simp [hs]

theorem md_not_html (d : Document) (h : d.is_markdown = true) : d.is_html = false := by
  have hd : d.file_name.data.reverse.head? = some 'd' := by
    have := endsWithS_last d.file_name ".md" h (by decide)
    simpa using this
  have h1 : endsWithS d.file_name ".html" = false := by
    cases hx : endsWithS d.file_name ".html" with
    | false => rfl
    | true =>
      have h2 := endsWithS_last d.file_name ".html" hx (by decide)
      rw [hd] at h2
      exact absurd h2 (by decide)
  have h2 : endsWithS d.file_name ".htm" = false := by
    cases hx : endsWithS d.file_name ".htm" with
    | false => rfl
    | true =>
      have h3 := endsWithS_last d.file_name ".htm" hx (by decide)
      rw [hd] at h3
      exact absurd h3 (by decide)
  simp [Document.is_html, h1, h2]

/-! ### Shape of the per-document loop body -/

theorem perDocActs_md_tpl (root c : Category) (out : List String) (d : Document)
    (mt : List String) (hm : d.is_markdown = true) (ht : c.document_template = some mt) :
    perDocActs root c out d =
      [Act.write (out ++ [subMdHtml d.file_name])
        (RContent.rendered mt (markdownDocs c) (childrenWithHtml c) root (some d) c)] := by
  simp only [perDocActs, hm, ht]

theorem perDocActs_html (root c : Category) (out : List String) (d : Document)
    (hcase : d.is_markdown = false ∨ c.document_template = none) (hh : d.is_html = true) :
    perDocActs root c out d =
      [Act.write (out ++ [d.file_name])
        (RContent.rendered (d.dirPath ++ [d.file_name]) (markdownDocs c)
          (childrenWithHtml c) root none c)] := by
  rcases hcase with hm | hnt
  · rcases htp : c.document_template with _ | mt <;> simp only [perDocActs, hm, htp, hh, if_true]
  · rcases hm : d.is_markdown <;> simp only [perDocActs, hm, hnt, hh, if_true]

theorem perDocActs_copy (root c : Category) (out : List String) (d : Document)
    (hcase : d.is_markdown = false ∨ c.document_template = none) (hh : d.is_html = false) :
    perDocActs root c out d = [Act.write (out ++ [d.file_name]) (RContent.raw d.content)] := by
  rcases hcase with hm | hnt
  · rcases htp : c.document_template with _ | mt <;>
      simp only [perDocActs, hm, htp, hh, Bool.false_eq_true, if_false]
  · rcases hm : d.is_markdown <;>
      simp only [perDocActs, hm, hnt, hh, Bool.false_eq_true, if_false]

theorem perDocActs_target (root c : Category) (out : List String) (d : Document) :
    (perDocActs root c out d).map Act.target = [out ++ [outName c d]] := by
  cases hm : d.is_markdown with
  | true =>
    rcases htp : c.document_template with _ | mt
    · cases hh : d.is_html with
      | false =>
        rw [perDocActs_copy root c out d (Or.inr htp) hh]
        simp [Act.target, outName, hm, htp]
      | true =>
        rw [perDocActs_html root c out d (Or.inr htp) hh]
        simp [Act.target, outName, hm, htp]
    · rw [perDocActs_md_tpl root c out d mt hm htp]
      simp [Act.target, outName, hm, htp]
  | false =>
    cases hh : d.is_html with
    | false =>
      rw [perDocActs_copy root c out d (Or.inl hm) hh]
      simp [Act.target, outName, hm]
    | true =>
      rw [perDocActs_html root c out d (Or.inl hm) hh]
      simp [Act.target, outName, hm]

theorem perDocActs_singleton (root c : Category) (out : List String) (d : Document) :
    ∃ cnt, perDocActs root c out d = [Act.write (out ++ [outName c d]) cnt] := by
  cases hm : d.is_markdown with
  | true =>
    rcases htp : c.document_template with _ | mt
    · cases hh : d.is_html with
      | false =>
        refine ⟨RContent.raw d.content, ?_⟩
        rw [perDocActs_copy root c out d (Or.inr htp) hh]
        simp [outName, hm, htp]
      | true =>
        refine ⟨RContent.rendered (d.dirPath ++ [d.file_name]) (markdownDocs c)
          (childrenWithHtml c) root none c, ?_⟩
        rw [perDocActs_html root c out d (Or.inr htp) hh]
        simp [outName, hm, htp]
    · refine ⟨RContent.rendered mt (markdownDocs c) (childrenWithHtml c) root (some d) c, ?_⟩
      rw [perDocActs_md_tpl root c out d mt hm htp]
      simp [outName, hm, htp]
  | false =>
    cases hh : d.is_html with
    | false =>
      refine ⟨RContent.raw d.content, ?_⟩
      rw [perDocActs_copy root c out d (Or.inl hm) hh]
      simp [outName, hm]
    | true =>
      refine ⟨RContent.rendered (d.dirPath ++ [d.file_name]) (markdownDocs c)
        (childrenWithHtml c) root none c, ?_⟩
      rw [perDocActs_html root c out d (Or.inl hm) hh]
      simp [outName, hm]

/-! ### Trace infrastructure -/

theorem mem_writesAt (acts : List Act) (p : List String) (x : RContent) :
    x ∈ writesAt acts p ↔ Act.write p x ∈ acts := by
  unfold writesAt
  rw [List.mem_filterMap]
  constructor
  · rintro ⟨a, ha, hx⟩
    rcases a with q | ⟨q, cnt⟩
    · simp at hx
    · by_cases hq : q = p
      · subst hq
        simp at hx
        subst hx
        exact ha
      · simp [hq] at hx
  · intro h
    exact ⟨Act.write p x, h, by simp⟩

theorem writesAt_append (l₁ l₂ : List Act) (p : List String) :
    writesAt (l₁ ++ l₂) p = writesAt l₁ p ++ writesAt l₂ p := by
  unfold writesAt
  rw [List.filterMap_append]

theorem writesAt_cons_mkdir (q : List String) (l : List Act) (p : List String) :
    writesAt (Act.mkdir q :: l) p = writesAt l p := by
  unfold writesAt
  rw [List.filterMap_cons]

theorem mem_renderChildren_iff (root parent : Category) (ds : List FsDir)
    (out : List String) (a : Act) :
    a ∈ renderChildren root parent ds out ↔
      ∃ d ∈ ds, a ∈ renderCategory root (mkChild parent d) (out ++ [d.name]) := by
  induction ds with
  | nil => simp [renderChildren_nil]
  | cons d rest ih =>
    rw [renderChildren_cons, List.mem_append, ih]
    simp

theorem FsDir.sizeOf_mem_subdirs {sub d : FsDir} (h : sub ∈ d.subdirs) :
    sizeOf sub < sizeOf d := by
  cases d with
  | node n fs ds =>
    simp only [FsDir.subdirs] at h
    have := List.sizeOf_lt_of_mem h
    simp only [FsDir.node.sizeOf_spec]
    omega

theorem renderCategory_write_long :
    ∀ (N : Nat) (root c : Category) (out : List String), sizeOf c.dir ≤ N →
      ∀ p cnt, Act.write p cnt ∈ renderCategory root c out → out.length + 1 ≤ p.length := by
  intro N
  induction N with
  | zero =>
    intro root c out hN
    exfalso
    cases hd : c.dir with
    | node n fs ds =>
      rw [hd] at hN
      simp only [FsDir.node.sizeOf_spec] at hN
      omega
  | succ N ih =>
    intro root c out hN p cnt hmem
    rw [renderCategory_def] at hmem
    rcases List.mem_cons.mp hmem with heq | hmem
    · cases heq
    rcases List.mem_append.mp hmem with hmem | hchild
    · rcases List.mem_append.mp hmem with hidx | hdoc
      · unfold indexPageActs at hidx
        rcases hit : c.index_template with _ | t <;> rw [hit] at hidx
        · simp at hidx
        · by_cases hlen : (markdownDocs c).length > 0
          · simp only [hlen, if_true] at hidx
            rcases List.mem_singleton.mp hidx
            simp
          · simp [hlen] at hidx
      · rcases List.mem_flatMap.mp hdoc with ⟨d, hd, hmem2⟩
        obtain ⟨cnt2, hshape⟩ := perDocActs_singleton root c out d
        rw [hshape] at hmem2
        rcases List.mem_singleton.mp hmem2
        simp
    · rcases (mem_renderChildren_iff root c c.dir.subdirs out _).mp hchild with ⟨d, hd, hmem2⟩
      have hsz : sizeOf (mkChild c d).dir ≤ N := by
        rw [mkChild_dir]
        have := FsDir.sizeOf_mem_subdirs hd
        omega
      have := ih root (mkChild c d) (out ++ [d.name]) hsz p cnt hmem2
      simp at this
      omega

theorem renderCategory_write_target_len (root c : Category) (out : List String)
    (p : List String) (cnt : RContent) (h : Act.write p cnt ∈ renderCategory root c out) :
    out.length + 1 ≤ p.length :=
  renderCategory_write_long (sizeOf c.dir) root c out le_rfl p cnt h

theorem renderChildren_write_deep (root parent : Category) (ds : List FsDir)
    (out : List String) (p : List String) (cnt : RContent)
    (h : Act.write p cnt ∈ renderChildren root parent ds out) :
    out.length + 2 ≤ p.length := by
  rcases (mem_renderChildren_iff root parent ds out _).mp h with ⟨d, hd, hmem⟩
  have := renderCategory_write_target_len root (mkChild parent d) (out ++ [d.name]) p cnt hmem
  simp at this
  omega

theorem mem_documents (c : Category) (nm cont : String)
    (h : (nm, cont) ∈ c.dir.files) (h1 : nm ≠ INDEX_TEMPLATE) (h2 : nm ≠ MARKDOWN_TEMPLATE) :
    (⟨c.dirPath, nm, cont⟩ : Document) ∈ c.documents := by
  unfold Category.documents
  rw [List.mem_map]
  refine ⟨(nm, cont), ?_, rfl⟩
  rw [List.mem_filter]
  exact ⟨h, by simp [h1, h2]⟩

theorem getLast?_append_all_eq {α : Type} (w₁ w₂ : List α) (k : α) (hne : w₂ ≠ [])
    (hall : ∀ x ∈ w₂, x = k) : (w₁ ++ w₂).getLast? = some k := by
  rw [List.getLast?_append_of_ne_nil _ hne]
  rw [List.getLast?_eq_getLast _ hne]
  exact congrArg some (hall _ (List.getLast_mem hne))

theorem mem_perDocActs_cases (root c : Category) (out : List String) (d : Document)
    (p : List String) (cnt : RContent) (h : Act.write p cnt ∈ perDocActs root c out d) :
    (∃ mt, d.is_markdown = true ∧ c.document_template = some mt
      ∧ p = out ++ [subMdHtml d.file_name]
      ∧ cnt = RContent.rendered mt (markdownDocs c) (childrenWithHtml c) root (some d) c)
    ∨ ((d.is_markdown = false ∨ c.document_template = none) ∧ d.is_html = true
      ∧ p = out ++ [d.file_name]
      ∧ cnt = RContent.rendered (d.dirPath ++ [d.file_name]) (markdownDocs c)
          (childrenWithHtml c) root none c)
    ∨ ((d.is_markdown = false ∨ c.document_template = none) ∧ d.is_html = false
      ∧ p = out ++ [d.file_name] ∧ cnt = RContent.raw d.content) := by
  cases hm : d.is_markdown with
  | true =>
    rcases htp : c.document_template with _ | mt
    · cases hh : d.is_html with
      | false =>
        rw [perDocActs_copy root c out d (Or.inr htp) hh] at h
        have h2 := List.mem_singleton.mp h
        injection h2 with hp hcnt
        exact Or.inr (Or.inr ⟨Or.inr rfl, rfl, hp, hcnt⟩)
      | true =>
        rw [perDocActs_html root c out d (Or.inr htp) hh] at h
        have h2 := List.mem_singleton.mp h
        injection h2 with hp hcnt
        exact Or.inr (Or.inl ⟨Or.inr rfl, rfl, hp, hcnt⟩)
    · rw [perDocActs_md_tpl root c out d mt hm htp] at h
      have h2 := List.mem_singleton.mp h
      injection h2 with hp hcnt
      exact Or.inl ⟨mt, rfl, rfl, hp, hcnt⟩
  | false =>
    cases hh : d.is_html with
    | false =>
      rw [perDocActs_copy root c out d (Or.inl hm) hh] at h
      have h2 := List.mem_singleton.mp h
      injection h2 with hp hcnt
      exact Or.inr (Or.inr ⟨Or.inl rfl, rfl, hp, hcnt⟩)
    | true =>
      rw [perDocActs_html root c out d (Or.inl hm) hh] at h
      have h2 := List.mem_singleton.mp h
      injection h2 with hp hcnt
      exact Or.inr (Or.inl ⟨Or.inl rfl, rfl, hp, hcnt⟩)

theorem mem_indexPageActs_cases (root c : Category) (out : List String)
    (p : List String) (cnt : RContent) (h : Act.write p cnt ∈ indexPageActs root c out) :
    ∃ t, c.index_template = some t ∧ (markdownDocs c).length > 0
      ∧ p = out ++ ["index.html"]
      ∧ cnt = RContent.rendered t (markdownDocs c) c.children root none c := by
  unfold indexPageActs at h
  rcases hit : c.index_template with _ | t <;> rw [hit] at h
  · simp at h
  · by_cases hlen : (markdownDocs c).length > 0
    · simp only [hlen, if_true] at h
      have h2 := List.mem_singleton.mp h
      injection h2 with hp hcnt
      exact ⟨t, rfl, hlen, hp, hcnt⟩
    · simp [hlen] at h

/-! ### Claims -/

/-- C1: for every category, the `documents` sequence passed into the template
bindings (of the index-template, the document-template and html documents) is
exactly the category's markdown documents sorted ascending by ordering index,
and the sort is stable: it is sorted (`Pairwise docLE`), it is a permutation
of the unsorted markdown filter of the directory listing, documents of equal
key keep their original directory-listing order (the per-key filters agree),
and every rendered write in the index step or the document pass carries
exactly this list as its `documents` binding. -/
theorem C1_documents_sorted_stable (c : Category) :
    (markdownDocs c).Pairwise docLE
    ∧ (markdownDocs c).Perm (c.documents.filter (fun d => d.is_markdown))
    ∧ (∀ k : Nat, (markdownDocs c).filter (fun d => sortKey d = k)
        = (c.documents.filter (fun d => d.is_markdown)).filter (fun d => sortKey d = k))
    ∧ (∀ (root : Category) (out p : List String) (cnt : RContent),
        Act.write p cnt ∈ indexPageActs root c out ++ documentPassActs root c out →
        cnt.documentsOf = none ∨ cnt.documentsOf = some (markdownDocs c)) := by
  refine ⟨sortDocs_sorted _, sortDocs_perm _, fun k => sortDocs_filter_key k _, ?_⟩
  intro root out p cnt h
  rcases List.mem_append.mp h with hidx | hdoc
  · obtain ⟨t, _, _, _, hcnt⟩ := mem_indexPageActs_cases root c out p cnt hidx
    subst hcnt
    exact Or.inr rfl
  · rcases List.mem_flatMap.mp hdoc with ⟨d, _, hmem⟩
    rcases mem_perDocActs_cases root c out d p cnt hmem with
      ⟨mt, _, _, _, hcnt⟩ | ⟨_, _, _, hcnt⟩ | ⟨_, _, _, hcnt⟩ <;> subst hcnt
    · exact Or.inr rfl
    · exact Or.inr rfl
    · exact Or.inl rfl

def fsC1 : FsDir := .node "site" [("_index.html", "I"), ("2-b.md", "B"), ("1-a.md", "A")] []

def rootC1 : Category := mkCategory ["site"] fsC1 (some (0, "ROOT")) none

def cntC1 : RContent :=
  RContent.rendered ["site", INDEX_TEMPLATE] (markdownDocs rootC1) rootC1.children
    rootC1 none rootC1

/-- Witness for C1 at a concrete two-document category. -/
theorem C1_documents_sorted_stable_witness :
    cntC1.documentsOf = none ∨ cntC1.documentsOf = some (markdownDocs rootC1) := by
  refine (C1_documents_sorted_stable rootC1).2.2.2 rootC1 ["o"] (["o"] ++ ["index.html"])
    cntC1 ?_
  have hix : indexPageActs rootC1 rootC1 ["o"]
      = [Act.write (["o"] ++ ["index.html"]) cntC1] := rfl
  refine List.mem_append.mpr (Or.inl ?_)
  rw [hix]
  exact List.mem_singleton_self _

theorem mkChild_ancestors (c : Category) (d : FsDir) :
    (mkChild c d).ancestors = c :: c.ancestors := rfl

/-- C2: template resolution at construction.  With a parent, each resolved
template is the category's own template file path when that file exists in
its directory and otherwise the parent's already-resolved template unchanged;
a root category with no template files resolves both to `none`; and any
category whose whole ancestor chain (itself included) has no template files
resolves both to `none`.  Resolution is constructor data of `Category` and
is never recomputed. -/
theorem C2_template_resolution :
    (∀ (p : List String) (d : FsDir) (it : Option (Nat × String)) (q : Category),
      (mkCategory p d it (some q)).document_template
          = (if d.hasEntry MARKDOWN_TEMPLATE then some (p ++ [MARKDOWN_TEMPLATE])
             else q.document_template)
        ∧ (mkCategory p d it (some q)).index_template
          = (if d.hasEntry INDEX_TEMPLATE then some (p ++ [INDEX_TEMPLATE])
             else q.index_template))
    ∧ (∀ (p : List String) (d : FsDir) (it : Option (Nat × String)),
        d.hasEntry MARKDOWN_TEMPLATE = false → d.hasEntry INDEX_TEMPLATE = false →
        (mkCategory p d it none).document_template = none
          ∧ (mkCategory p d it none).index_template = none)
    ∧ (∀ (p : List String) (d : FsDir) (it : Option (Nat × String)) (c : Category),
        Desc (mkCategory p d it none) c →
        (∀ a, a = c ∨ a ∈ c.ancestors →
          a.dir.hasEntry MARKDOWN_TEMPLATE = false ∧ a.dir.hasEntry INDEX_TEMPLATE = false) →
        c.document_template = none ∧ c.index_template = none) := by
  refine ⟨fun p d it q => ⟨rfl, rfl⟩, ?_, ?_⟩
  · intro p d it h1 h2
    rw [mkCategory_document_template, mkCategory_index_template]
    simp [h1, h2]
  · intro p d it c hdesc
    induction hdesc with
    | refl =>
      intro hall
      obtain ⟨h1, h2⟩ := hall _ (Or.inl rfl)
      rw [mkCategory_dir] at h1 h2
      rw [mkCategory_document_template, mkCategory_index_template]
      simp [h1, h2]
    | step hdesc hmem ih =>
      intro hall
      rename_i b c'
      rcases (mem_children_iff b c').mp hmem with ⟨dd, hdd, heq⟩
      subst heq
      have hb := ih (fun a ha => hall a (Or.inr (by
        rw [mkChild_ancestors]
        rcases ha with h | h
        · exact h ▸ List.mem_cons_self _ _
        · exact List.mem_cons_of_mem _ h)))
      obtain ⟨h1, h2⟩ := hall _ (Or.inl rfl)
      rw [mkChild_dir] at h1 h2
      unfold mkChild
      rw [mkCategory_document_template, mkCategory_index_template]
      simp [h1, h2, hb.1, hb.2]

def fsC2sub : FsDir := .node "sub" [] []

def fsC2 : FsDir := .node "site" [("x.md", "X")] [fsC2sub]

def rootC2 : Category := mkCategory ["site"] fsC2 (some (0, "ROOT")) none

def childC2 : Category := mkChild rootC2 fsC2sub

/-- Witness for C2: a two-level tree with no template files anywhere resolves
both templates to `none` at the leaf, and the parent-step and root rules hold
at concrete inputs. -/
theorem C2_template_resolution_witness :
    (childC2.document_template = none ∧ childC2.index_template = none)
    ∧ (rootC2.document_template = none ∧ rootC2.index_template = none) := by
  constructor
  · refine C2_template_resolution.2.2 ["site"] fsC2 (some (0, "ROOT")) childC2 ?_ ?_
    · refine Desc.step (Desc.refl _) ?_
      have h : (mkCategory ["site"] fsC2 (some (0, "ROOT")) none).children = [childC2] := rfl
      rw [h]
      exact List.mem_singleton_self _
    · intro a ha
      rcases ha with h | h
      · subst h
        exact ⟨by decide, by decide⟩
      · have e : childC2.ancestors = [rootC2] := rfl
        rw [e] at h
        have := List.mem_singleton.mp h
        subst this
        exact ⟨by decide, by decide⟩
  · exact C2_template_resolution.2.1 ["site"] fsC2 (some (0, "ROOT")) (by decide) (by decide)

/-- C3: per invocation of `renderCategory`, the index-page step (which is the
only step of the invocation writing the listing page) produces a write to
`output_dir/index.html` iff the category has a resolved index template and
its markdown document list is nonempty; when it fires it writes exactly the
index template rendered with `documents = markdownDocs`, the unfiltered
`children`, `root` and `category`; when either condition fails it produces
nothing (and, the model being total, no error). -/
theorem C3_index_page (root c : Category) (out : List String) :
    renderCategory root c out
      = Act.mkdir out :: (indexPageActs root c out ++ documentPassActs root c out
          ++ renderChildren root c c.dir.subdirs out)
    ∧ (indexPageActs root c out ≠ [] ↔ c.index_template ≠ none ∧ markdownDocs c ≠ [])
    ∧ (∀ t, c.index_template = some t → markdownDocs c ≠ [] →
        indexPageActs root c out
          = [Act.write (out ++ ["index.html"])
              (RContent.rendered t (markdownDocs c) c.children root none c)])
    ∧ ((c.index_template = none ∨ markdownDocs c = []) → indexPageActs root c out = []) := by
  refine ⟨renderCategory_def root c out, ?_, ?_, ?_⟩
  · unfold indexPageActs
    rcases hit : c.index_template with _ | t
    · simp
    · by_cases hlen : (markdownDocs c).length > 0
      · simp only [hlen, if_true]
        constructor
        · intro _
          exact ⟨by simp, by
            intro hx
            rw [hx] at hlen
            simp at hlen⟩
        · intro _
          simp
      · simp only [hlen, if_false]
        constructor
        · intro hx
          exact absurd rfl hx
        · rintro ⟨_, hne⟩
          exact absurd (by simpa [List.length_pos] using hlen) (by simpa using hne)
  · intro t hit hne
    unfold indexPageActs
    rw [hit]
    simp [List.length_pos.mpr hne]
  · intro hor
    unfold indexPageActs
    rcases hor with hit | hmd
    · rw [hit]
    · rcases hit : c.index_template with _ | t
      · rfl
      · simp [hmd]

def fsC3 : FsDir := .node "site" [("_index.html", "I"), ("01-a.md", "A")] []

def rootC3 : Category := mkCategory ["site"] fsC3 (some (0, "ROOT")) none

/-- Witness for C3 at a concrete category owning an index template and one
markdown document. -/
theorem C3_index_page_witness :
    indexPageActs rootC3 rootC3 ["o"]
      = [Act.write (["o"] ++ ["index.html"])
          (RContent.rendered ["site", INDEX_TEMPLATE] (markdownDocs rootC3) rootC3.children
            rootC3 none rootC3)] :=
  (C3_index_page rootC3 rootC3 ["o"]).2.2.1 ["site", INDEX_TEMPLATE] (by decide) (by decide)

/-- C4: a markdown document of a category whose resolved document template is
`none` falls through to the copy branch: the pipeline copies the raw markdown
source byte-for-byte to the output directory under the unchanged basename,
which still carries its original `.md` extension; no markdown conversion and
no template rendering happens for it. -/
theorem C4_markdown_without_template (root c : Category) (out : List String) (d : Document)
    (hnt : c.document_template = none) (hd : d ∈ c.documents) (hm : d.is_markdown = true) :
    perDocActs root c out d = [Act.write (out ++ [d.file_name]) (RContent.raw d.content)]
    ∧ Act.write (out ++ [d.file_name]) (RContent.raw d.content) ∈ documentPassActs root c out
    ∧ endsWithS d.file_name ".md" = true := by
  have hh := md_not_html d hm
  have hcopy := perDocActs_copy root c out d (Or.inr hnt) hh
  refine ⟨hcopy, ?_, hm⟩
  unfold documentPassActs
  refine List.mem_flatMap.mpr ⟨d, hd, ?_⟩
  rw [hcopy]
  exact List.mem_singleton_self _

def fsC4 : FsDir := .node "site" [("01-a.md", "A-content")] []

def rootC4 : Category := mkCategory ["site"] fsC4 (some (0, "ROOT")) none

def docC4 : Document := ⟨["site"], "01-a.md", "A-content"⟩

/-- Witness for C4 at a concrete template-less category. -/
theorem C4_markdown_without_template_witness :
    perDocActs rootC4 rootC4 ["o"] docC4
      = [Act.write (["o"] ++ ["01-a.md"]) (RContent.raw "A-content")]
    ∧ Act.write (["o"] ++ ["01-a.md"]) (RContent.raw "A-content")
        ∈ documentPassActs rootC4 rootC4 ["o"]
    ∧ endsWithS "01-a.md" ".md" = true :=
  C4_markdown_without_template rootC4 rootC4 ["o"] docC4 (by decide) (by decide) (by decide)

/-- C5: `has_html` is true iff at least one document is markdown or html;
every `children` binding of the document pass (document-template and
html-document rendering alike) is the `has_html`-filtered child list, so a
child without renderable content never appears there; yet the pipeline still
recurses into every subdirectory: each child still gets its mirrored output
directory ensured and its asset files copied byte-for-byte. -/
theorem C5_navigation_filter (c : Category) :
    (c.has_html = true ↔ ∃ d ∈ c.documents, d.is_markdown = true ∨ d.is_html = true)
    ∧ (∀ (root : Category) (out p : List String) (cnt : RContent),
        Act.write p cnt ∈ documentPassActs root c out →
        cnt.childrenOf = none ∨ cnt.childrenOf = some (childrenWithHtml c))
    ∧ (∀ x ∈ childrenWithHtml c, x.has_html = true)
    ∧ (∀ (root : Category) (out : List String) (sub : FsDir), sub ∈ c.dir.subdirs →
        Act.mkdir (out ++ [sub.name]) ∈ renderCategory root c out
        ∧ (∀ nm cont, (nm, cont) ∈ sub.files → nm ≠ INDEX_TEMPLATE →
            nm ≠ MARKDOWN_TEMPLATE → endsWithS nm ".md" = false →
            endsWithS nm ".html" = false → endsWithS nm ".htm" = false →
            Act.write (out ++ [sub.name, nm]) (RContent.raw cont)
              ∈ renderCategory root c out)) := by
  refine ⟨?_, ?_, ?_, ?_⟩
  · simp [Category.has_html, List.any_eq_true, Bool.or_eq_true]
  · intro root out p cnt h
    rcases List.mem_flatMap.mp h with ⟨d, _, hmem⟩
    rcases mem_perDocActs_cases root c out d p cnt hmem with
      ⟨mt, _, _, _, hcnt⟩ | ⟨_, _, _, hcnt⟩ | ⟨_, _, _, hcnt⟩ <;> subst hcnt
    · exact Or.inr rfl
    · exact Or.inr rfl
    · exact Or.inl rfl
  · intro x hx
    exact (List.mem_filter.mp hx).2
  · intro root out sub hsub
    constructor
    · rw [renderCategory_def]
      apply List.mem_cons_of_mem
      refine List.mem_append.mpr (Or.inr ?_)
      refine (mem_renderChildren_iff root c c.dir.subdirs out _).mpr ⟨sub, hsub, ?_⟩
      rw [renderCategory_def]
      exact List.mem_cons_self _ _
    · intro nm cont hf h1 h2 hmd hhtml hhtm
      have hassoc : out ++ [sub.name, nm] = (out ++ [sub.name]) ++ [nm] := by simp
      rw [hassoc, renderCategory_def]
      apply List.mem_cons_of_mem
      refine List.mem_append.mpr (Or.inr ?_)
      refine (mem_renderChildren_iff root c c.dir.subdirs out _).mpr ⟨sub, hsub, ?_⟩
      rw [renderCategory_def]
      apply List.mem_cons_of_mem
      refine List.mem_append.mpr (Or.inl (List.mem_append.mpr (Or.inr ?_)))
      have hdoc : (⟨(mkChild c sub).dirPath, nm, cont⟩ : Document)
          ∈ (mkChild c sub).documents := by
        refine mem_documents (mkChild c sub) nm cont ?_ h1 h2
        rw [mkChild_dir]
        exact hf
      have hm : (⟨(mkChild c sub).dirPath, nm, cont⟩ : Document).is_markdown = false := hmd
      have hh : (⟨(mkChild c sub).dirPath, nm, cont⟩ : Document).is_html = false := by
        simp [Document.is_html, hhtml, hhtm]
      have hcopy := perDocActs_copy root (mkChild c sub) (out ++ [sub.name])
        ⟨(mkChild c sub).dirPath, nm, cont⟩ (Or.inl hm) hh
      unfold documentPassActs
      refine List.mem_flatMap.mpr ⟨_, hdoc, ?_⟩
      rw [hcopy]
      exact List.mem_singleton_self _

def fsC5sub : FsDir := .node "img" [("logo.png", "PNGBYTES")] []

def fsC5 : FsDir := .node "site" [("01-a.md", "A")] [fsC5sub]

def rootC5 : Category := mkCategory ["site"] fsC5 (some (0, "ROOT")) none

/-- Witness for C5: the asset-only child gets its output directory and its
asset copied even though it has no renderable content. -/
theorem C5_navigation_filter_witness :
    Act.mkdir (["o"] ++ ["img"]) ∈ renderCategory rootC5 rootC5 ["o"]
    ∧ Act.write (["o"] ++ ["img", "logo.png"]) (RContent.raw "PNGBYTES")
        ∈ renderCategory rootC5 rootC5 ["o"] := by
  have hsub : fsC5sub ∈ rootC5.dir.subdirs := by
    have h : rootC5.dir.subdirs = [fsC5sub] := rfl
    rw [h]
    exact List.mem_singleton_self _
  have h := (C5_navigation_filter rootC5).2.2.2 rootC5 ["o"] fsC5sub hsub
  refine ⟨h.1, ?_⟩
  have hw := h.2 "logo.png" "PNGBYTES" (by decide) (by decide) (by decide) (by decide)
    (by decide) (by decide)
  exact hw

/-! ### Filename parser facts -/

theorem takeWhile_append_all {α : Type} (p : α → Bool) (l₁ l₂ : List α)
    (h : ∀ x ∈ l₁, p x = true) : (l₁ ++ l₂).takeWhile p = l₁ ++ l₂.takeWhile p := by
  induction l₁ with
  | nil => simp
  | cons a l ih =>
    simp only [List.cons_append, List.takeWhile_cons, h a (List.mem_cons_self a l), if_true]
    rw [ih (fun x hx => h x (List.mem_cons_of_mem a hx))]

theorem dropWhile_append_all {α : Type} (p : α → Bool) (l₁ l₂ : List α)
    (h : ∀ x ∈ l₁, p x = true) : (l₁ ++ l₂).dropWhile p = l₂.dropWhile p := by
  induction l₁ with
  | nil => simp
  | cons a l ih =>
    simp only [List.cons_append, List.dropWhile_cons, h a (List.mem_cons_self a l), if_true]
    exact ih (fun x hx => h x (List.mem_cons_of_mem a hx))

theorem takeWhile_eq_self_of_all {α : Type} (p : α → Bool) (l : List α)
    (h : ∀ x ∈ l, p x = true) : l.takeWhile p = l := by
  induction l with
  | nil => rfl
  | cons a l ih =>
    simp only [List.takeWhile_cons, h a (List.mem_cons_self a l), if_true]
    rw [ih (fun x hx => h x (List.mem_cons_of_mem a hx))]

theorem isSepChar_not_digit (c : Char) (h : isSepChar c = true) : c.isDigit = false := by
  have h2 : (c = '-' ∨ c = '.') ∨ c = '_' := by
    simpa [isSepChar, Bool.or_eq_true, decide_eq_true_eq] using h
  rcases h2 with (h2 | h2) | h2 <;> subst h2 <;> decide

theorem reMatch_decomp (ds : List Char) (sep : Char) (rest : List Char)
    (hds : ds ≠ []) (hdig : ∀ x ∈ ds, x.isDigit = true) (hsep : isSepChar sep = true)
    (hrest : rest ≠ []) (hnl : ∀ x ∈ rest, x ≠ '\n') :
    reMatchIndexed (ds ++ sep :: rest) = some (digitsToNat ds, rest) := by
  have hsepd : sep.isDigit = false := isSepChar_not_digit sep hsep
  unfold reMatchIndexed
  rw [takeWhile_append_all _ ds (sep :: rest) hdig,
    dropWhile_append_all _ ds (sep :: rest) hdig]
  rw [List.takeWhile_cons, List.dropWhile_cons]
  simp only [hsepd, Bool.false_eq_true, if_false, List.append_nil]
  have hne : ds.isEmpty = false := by
    cases ds with
    | nil => exact absurd rfl hds
    | cons a l => rfl
  rw [hne]
  simp only [Bool.false_eq_true, if_false, hsep, if_true]
  have hr : rest.takeWhile (fun x => x ≠ '\n') = rest :=
    takeWhile_eq_self_of_all _ rest (fun x hx => by
      simp only [decide_eq_true_eq]
      exact hnl x hx)
  rw [hr]
  have hrne : rest.isEmpty = false := by
    cases rest with
    | nil => exact absurd rfl hrest
    | cons a l => rfl
  rw [hrne]
  simp only [Bool.false_eq_true, if_false]

/-- C6: the filename parser is total and follows the numeric-prefix
convention: the three reference examples evaluate as specified, a filename of
shape `digits ++ separator ++ remainder` (nonempty digits, separator in
`[-._]`, nonempty remainder without newline) parses to the digits' value and
the remainder with its final extension stripped, and a filename the regex
does not match parses to the sentinel and the whole name with its extension
stripped. -/
theorem C6_parse_file_name :
    parse_file_name "03-intro.md" = (3, "intro")
    ∧ parse_file_name "notes.md" = (MAX_INDEX, "notes")
    ∧ parse_file_name "10_a.b.md" = (10, "a.b")
    ∧ (∀ (ds : List Char) (sep : Char) (rest : List Char),
        ds ≠ [] → (∀ x ∈ ds, x.isDigit = true) → isSepChar sep = true → rest ≠ [] →
        (∀ x ∈ rest, x ≠ '\n') →
        parse_file_name ⟨ds ++ sep :: rest⟩ = (digitsToNat ds, (splitext ⟨rest⟩).1))
    ∧ (∀ fn : String, reMatchIndexed fn.data = none →
        parse_file_name fn = (MAX_INDEX, (splitext fn).1)) := by
  refine ⟨by decide, by decide, by decide, ?_, ?_⟩
  · intro ds sep rest h1 h2 h3 h4 h5
    unfold parse_file_name
    rw [show (⟨ds ++ sep :: rest⟩ : String).data = ds ++ sep :: rest from rfl]
    rw [reMatch_decomp ds sep rest h1 h2 h3 h4 h5]
  · intro fn h
    unfold parse_file_name
    rw [h]

/-- Witness for C6 applying the decomposition clause at a concrete filename. -/
theorem C6_parse_file_name_witness : parse_file_name "7_x.md" = (7, "x") := by
  have h := C6_parse_file_name.2.2.2.1 ['7'] '_' "x.md".data (by decide) (by decide)
    (by decide) (by decide) (by decide)
  exact h

def fsC7 : FsDir := .node "site" [("10000000001-z.md", "Z"), ("notes.md", "N")] []

def rootC7 : Category := mkCategory ["site"] fsC7 (some (0, "ROOT")) none

/-- Counterexample to C7 as stated: `"10000000000-x.md"` matches the
numeric-prefix convention, yet its parsed index equals the sentinel
`MAX_INDEX = 10^10` rather than being below it; and in the concrete category
holding `10000000001-z.md` and `notes.md`, the unordered document sorts
BEFORE the explicitly indexed one, contradicting "every explicitly indexed
document sorts before every unordered document". -/
theorem C7_counterexample :
    reMatchIndexed "10000000000-x.md".data = some (10000000000, "x.md".data)
    ∧ (parse_file_name "10000000000-x.md").1 = MAX_INDEX
    ∧ ¬((parse_file_name "10000000000-x.md").1 < MAX_INDEX)
    ∧ (markdownDocs rootC7).map Document.title = ["notes", "z"] :=
  ⟨by decide, by decide, by decide, by decide⟩

/-- C7 (amended): the sentinel `MAX_INDEX = 10^10` is strictly greater than
every explicit numeric index whose value is below `10^10`; every markdown
filename the regex rejects gets exactly the sentinel as its sort key; and in
the sorted sequence no document with key `≥ MAX_INDEX` (in particular no
unordered document) ever precedes one with key `< MAX_INDEX`, so documents
with explicit indices below the sentinel sort before all unordered ones. -/
theorem C7_sentinel_amended :
    (∀ (fn : String) (i : Nat) (t : List Char),
      reMatchIndexed fn.data = some (i, t) → i < 10000000000 →
      (parse_file_name fn).1 = i ∧ (parse_file_name fn).1 < MAX_INDEX)
    ∧ (∀ l : List Document,
        (sortDocs l).Pairwise (fun a b => sortKey b < MAX_INDEX → sortKey a < MAX_INDEX))
    ∧ (∀ d : Document, d.is_markdown = true → reMatchIndexed d.file_name.data = none →
        sortKey d = MAX_INDEX) := by
  refine ⟨?_, ?_, ?_⟩
  · intro fn i t h hi
    unfold parse_file_name
    rw [h]
    exact ⟨rfl, hi⟩
  · intro l
    refine (sortDocs_sorted l).imp ?_
    intro a b hab hb
    exact Nat.lt_of_le_of_lt hab hb
  · intro d hm hnone
    simp [sortKey, Document.index, hm, parse_file_name, hnone]

/-- Witness for C7's amended statement at concrete inputs. -/
theorem C7_sentinel_amended_witness :
    (parse_file_name "03-intro.md").1 = 3 ∧ (parse_file_name "03-intro.md").1 < MAX_INDEX
    ∧ sortKey ⟨["s"], "notes.md", "N"⟩ = MAX_INDEX := by
  have h1 := C7_sentinel_amended.1 "03-intro.md" 3 "intro.md".data (by decide) (by decide)
  have h3 := C7_sentinel_amended.2.2 ⟨["s"], "notes.md", "N"⟩ (by decide) (by decide)
  exact ⟨h1.1, h1.2, h3⟩

/-- C8: the per-document pass iterates the category's documents in their
original directory-listing order, not the sorted order: the pass is the
concatenation of the per-document bodies over `c.documents` as listed, and
the sequence of written output paths is the listing-order map of the output
names — untouched by the sorting of the `documents` binding. -/
theorem C8_document_pass_order (root c : Category) (out : List String) :
    documentPassActs root c out = c.documents.flatMap (perDocActs root c out)
    ∧ (documentPassActs root c out).map Act.target
        = c.documents.map (fun d => out ++ [outName c d]) := by
  refine ⟨rfl, ?_⟩
  unfold documentPassActs
  rw [List.map_flatMap]
  have h : (fun d => (perDocActs root c out d).map Act.target)
      = fun d => [out ++ [outName c d]] := funext (perDocActs_target root c out)
  rw [h]
  generalize c.documents = l
  induction l with
  | nil => rfl
  | cons a l ih =>
    rw [List.flatMap_cons, List.map_cons, ih]
    rfl

def fsC9 : FsDir := .node "site" [] [.node "docs" [] []]

def rootC9 : Category := mkCategory ["site"] fsC9 (some (0, "ROOT")) none

def childC9 : Category := mkChild rootC9 (.node "docs" [] [])

/-- Counterexample to C9 as stated: the depth-1 category `docs` has uri
`"/docs"`, while the slash-JOIN of its non-root chain `["docs"]` is `"docs"`
— the code's uri carries a leading slash the join does not. -/
theorem C9_counterexample :
    childC9 ∈ rootC9.children ∧ childC9.uri = "/docs" ∧ ("/docs" : String) ≠ "docs" := by
  refine ⟨?_, rfl, by decide⟩
  have h : rootC9.children = [childC9] := rfl
  rw [h]
  exact List.mem_singleton_self _

/-- Slash-prefixed concatenation of chain names, the shape the code's `uri`
actually produces: empty for the root, `"/a/b"` (leading slash) at depth 2. -/
def uriOfNames (ns : List String) : String := ns.foldl (fun acc n => acc ++ "/" ++ n) ""

/-- C9 (amended): for every category reached from a parentless root through
`children`, `uri` is the concatenation, over the non-root ancestors and the
category itself, of `"/"` followed by the directory basename — the root
contributes the empty string, and every deeper level carries a LEADING
slash (`"/a/b"`), rather than being the bare `"/"`-join (`"a/b"`). -/
theorem C9_uri_amended (root c : Category) (ns : List String) (hroot : root.parent = none)
    (h : ChainFrom root c ns) : c.uri = uriOfNames ns := by
  induction h with
  | refl =>
    cases root with
    | mk p d i t dt it par =>
      simp only [Category.parent] at hroot
      subst hroot
      rfl
  | step hch hmem ih =>
    rename_i b c' ns'
    rcases (mem_children_iff b c').mp hmem with ⟨dd, hdd, heq⟩
    have hpar : c'.uri = b.uri ++ "/" ++ c'.dir.name := by
      subst heq
      rfl
    rw [hpar, ih]
    unfold uriOfNames
    rw [List.foldl_append]
    rfl

def fsC9wB : FsDir := .node "b" [] []

def fsC9wA : FsDir := .node "a" [] [fsC9wB]

def fsC9w : FsDir := .node "site" [] [fsC9wA]

def rootC9w : Category := mkCategory ["site"] fsC9w (some (0, "ROOT")) none

def childC9wA : Category := mkChild rootC9w fsC9wA

def childC9wB : Category := mkChild childC9wA fsC9wB

/-- Witness for C9's amended statement on a depth-2 chain. -/
theorem C9_uri_amended_witness :
    childC9wB.uri = uriOfNames ["a", "b"] ∧ uriOfNames ["a", "b"] = "/a/b" := by
  have hA : childC9wA ∈ rootC9w.children := by
    have h : rootC9w.children = [childC9wA] := rfl
    rw [h]
    exact List.mem_singleton_self _
  have hB : childC9wB ∈ childC9wA.children := by
    have h : childC9wA.children = [childC9wB] := rfl
    rw [h]
    exact List.mem_singleton_self _
  have hchain : ChainFrom rootC9w childC9wB ["a", "b"] :=
    ChainFrom.step (ChainFrom.step ChainFrom.refl hA) hB
  exact ⟨C9_uri_amended rootC9w childC9wB ["a", "b"] rfl hchain, by decide⟩

def fsC10 : FsDir := .node "site"
  [("_index.html", "I"), ("_markdown.html", "M"), ("01-a.md", "A"),
   ("index.html", "H"), ("index.md", "X")] []

def rootC10 : Category := mkCategory ["site"] fsC10 (some (0, "ROOT")) none

/-- Counterexample to C10 as stated: in a category that contains a source
`index.html`, qualifies for a generated index page, AND also contains an
`index.md` listed later (whose templated output name is again `index.html`),
the final content of `outputDir/index.html` is the document-template
rendering of `index.md` (template `_markdown.html`), NOT the rendering of
the source `index.html` file the claim promises. -/
theorem C10_counterexample :
    rootC10.documents.map Document.file_name = ["01-a.md", "index.html", "index.md"]
    ∧ rootC10.index_template = some ["site", INDEX_TEMPLATE]
    ∧ markdownDocs rootC10 ≠ []
    ∧ (finalContent (renderCategory rootC10 rootC10 ["out"]) ["out", "index.html"]).bind
        RContent.templateOf = some ["site", MARKDOWN_TEMPLATE]
    ∧ (some ["site", MARKDOWN_TEMPLATE] : Option (List String))
        ≠ some ["site", "index.html"] := by
  refine ⟨by decide, by decide, by decide, ?_, by decide⟩
  rw [renderCategory_def]
  have hsub : rootC10.dir.subdirs = ([] : List FsDir) := rfl
  rw [hsub, renderChildren_nil]
  decide

/-- C10 (amended): when a category's directory contains a source file named
`index.html` and the category qualifies for a generated index page, the
per-document pass (running after the index step) renders that source file
and writes it over `outputDir/index.html`; PROVIDED no other document of the
category maps to the output name `index.html` (e.g. no later-listed
`index.md` rendered through a document template), the final content of
`outputDir/index.html` is the rendered source file, not the index-template
output. -/
theorem C10_index_overwrite_amended (root c : Category) (out : List String) (d : Document)
    (hd : d ∈ c.documents) (hname : d.file_name = "index.html")
    (hit : c.index_template ≠ none) (hmd : markdownDocs c ≠ [])
    (huniq : ∀ d2 ∈ c.documents, outName c d2 = "index.html" → d2 = d) :
    finalContent (renderCategory root c out) (out ++ ["index.html"])
      = some (RContent.rendered (d.dirPath ++ [d.file_name]) (markdownDocs c)
          (childrenWithHtml c) root none c)
    ∧ indexPageActs root c out ≠ [] := by
  have hm : d.is_markdown = false := by
    unfold Document.is_markdown
    rw [hname]
    decide
  have hh : d.is_html = true := by
    unfold Document.is_html
    rw [hname]
    decide
  have hperd := perDocActs_html root c out d (Or.inl hm) hh
  constructor
  · unfold finalContent
    rw [← hname]
    rw [renderCategory_def, writesAt_cons_mkdir, writesAt_append]
    have hchild : writesAt (renderChildren root c c.dir.subdirs out) (out ++ [d.file_name])
        = [] := by
      rw [List.eq_nil_iff_forall_not_mem]
      intro x hx
      have hw := (mem_writesAt _ _ _).mp hx
      have hlen := renderChildren_write_deep root c c.dir.subdirs out _ x hw
      simp at hlen
    rw [hchild, List.append_nil, writesAt_append]
    refine getLast?_append_all_eq _ _ _ ?_ ?_
    · have hk : RContent.rendered (d.dirPath ++ [d.file_name]) (markdownDocs c)
          (childrenWithHtml c) root none c
          ∈ writesAt (documentPassActs root c out) (out ++ [d.file_name]) := by
        rw [mem_writesAt]
        unfold documentPassActs
        refine List.mem_flatMap.mpr ⟨d, hd, ?_⟩
        rw [hperd]
        exact List.mem_singleton_self _
      exact List.ne_nil_of_mem hk
    · intro x hx
      have hw := (mem_writesAt _ _ _).mp hx
      rcases List.mem_flatMap.mp hw with ⟨d2, hd2, hmem⟩
      have htgt := perDocActs_target root c out d2
      have hp : out ++ [d.file_name] = out ++ [outName c d2] := by
        have hin : Act.target (Act.write (out ++ [d.file_name]) x)
            ∈ (perDocActs root c out d2).map Act.target := List.mem_map_of_mem _ hmem
        rw [htgt] at hin
        simpa [Act.target] using hin
      have hon : outName c d2 = d.file_name := by
        have := List.append_cancel_left hp
        simpa using this.symm
      have hdd : d2 = d := huniq d2 hd2 (by rw [hon, hname])
      subst hdd
      rw [hperd] at hmem
      have h2 := List.mem_singleton.mp hmem
      injection h2 with hp2 hcnt
  · unfold indexPageActs
    rcases hit2 : c.index_template with _ | t
    · exact absurd hit2 hit
    · simp [List.length_pos.mpr hmd]

def fsC10w : FsDir := .node "site"
  [("_index.html", "I"), ("_markdown.html", "M"), ("01-a.md", "A"), ("index.html", "H")] []

def rootC10w : Category := mkCategory ["site"] fsC10w (some (0, "ROOT")) none

def docC10w : Document := ⟨["site"], "index.html", "H"⟩

/-- Witness for C10's amended statement: with `index.html` the only document
mapping to that output name, it does overwrite the generated index page. -/
theorem C10_index_overwrite_amended_witness :
    finalContent (renderCategory rootC10w rootC10w ["o"]) (["o"] ++ ["index.html"])
      = some (RContent.rendered (docC10w.dirPath ++ [docC10w.file_name])
          (markdownDocs rootC10w) (childrenWithHtml rootC10w) rootC10w none rootC10w)
    ∧ indexPageActs rootC10w rootC10w ["o"] ≠ [] :=
  C10_index_overwrite_amended rootC10w rootC10w ["o"] docC10w (by decide) rfl (by decide)
    (by decide) (by decide)
